import Mathlib

/-!
# Expiring cache (`cache/main.go`)

A shallow embedding of the expiring cache and its two expiry paths.

Modelling conventions.

* `time.Time` instants are integers (nanoseconds on the monotonic clock) and
  `time.Duration` values are integers (nanoseconds).  `t.Add(d)` is `t + d`,
  `t.After(u)` is `u < t`, and `time.Since(start)` is the difference
  `now - start` saturated to the 64-bit range of a `Duration`.
* Every call of `time.Now()` is an explicit argument: `AddItem` and
  `CheckNumber` take the one reading they make, a scan takes a clock
  `Nat → Int` giving its successive readings.
* The Go map `map[int]CacheItem` is an association list, read by first match;
  assignment and `delete` remove every pair under the key, so the functions
  keep keys unique.  `WF` says that the keys of a state are unique.
* `range c.items` yields the entries in an unspecified order: the scan takes
  that order as an argument, a permutation of the entries.
* The mutex makes each operation atomic; the operations are modelled as
  sequential state transformers.
-/

namespace ExpiringCache

/-! ## Data model -/

/-- The value and its expiration time. -/
structure CacheItem where
  value : Int
  expiryTime : Int
deriving DecidableEq, Repr

/-- The contents of a `map[int]CacheItem`. -/
abbrev Items := List (Int × CacheItem)

/-- The cache: its entries and the time to live of every insert. -/
structure Cache where
  items : Items
  ttl : Int
deriving DecidableEq, Repr

/-! ## Go map primitives -/

/-- Map index `item, exists := m[k]`: `none` when `exists` is false. -/
def mapGet : Items → Int → Option CacheItem
  | [], _ => none
  | (j, v) :: rest, k => if j = k then some v else mapGet rest k

/-- Map deletion `delete(m, k)`. -/
def mapDelete (m : Items) (k : Int) : Items :=
  m.filter (fun e => decide (e.1 ≠ k))

/-- Map assignment `m[k] = v`. -/
def mapSet (m : Items) (k : Int) (v : CacheItem) : Items :=
  (k, v) :: mapDelete m k

/-- The keys of a map are unique. -/
def WF (c : Cache) : Prop := (c.items.map Prod.fst).Nodup

instance (c : Cache) : Decidable (WF c) := by unfold WF; infer_instance

/-! ## Time primitives -/

/-- Largest `time.Duration`. -/
def maxDuration : Int := 2 ^ 63 - 1

/-- Smallest `time.Duration`. -/
def minDuration : Int := -(2 ^ 63)

/-- The comparison `t.After(u)`. -/
def After (t u : Int) : Bool := decide (u < t)

/-- The duration `time.Since(start)` read at instant `now`. -/
def Since (now start : Int) : Int :=
  if now - start > maxDuration then maxDuration
  else if now - start < minDuration then minDuration
  else now - start

/-! ## Operations -/

/-- The constructor `NewCache(ttl)`. -/
def NewCache (ttl : Int) : Cache :=
  { items := [], ttl := ttl }

/-- The method `AddItem(value)`, with `now` the reading of `time.Now()`. -/
def AddItem (c : Cache) (value : Int) (now : Int) : Cache :=
  { c with items := mapSet c.items value { value := value, expiryTime := now + c.ttl } }

/-- The method `CheckNumber(value)`, with `now` the reading of `time.Now()`:
the returned flag and the state it leaves. -/
def CheckNumber (c : Cache) (value : Int) (now : Int) : Bool × Cache :=
  match mapGet c.items value with
  | none => (false, c)
  | some item =>
    if After now item.expiryTime then
      (false, { c with items := mapDelete c.items value })
    else
      (true, c)

/-- The `range` loop of `ActiveExpiry`.  `order` is what remains to be
visited, `i` the number of clock readings made so far: the entry at the head
reads `clock (i + 1)` for the elapsed-time check and `clock (i + 2)` for the
expiry decision. -/
def ActiveExpiryScan (start maxScanDuration : Int) (clock : Nat → Int) :
    Nat → Items → Items → Items
  | _, [], items => items
  | i, (k, v) :: rest, items =>
    if Since (clock (i + 1)) start > maxScanDuration then
      items
    else if After (clock (i + 2)) v.expiryTime then
      ActiveExpiryScan start maxScanDuration clock (i + 2) rest (mapDelete items k)
    else
      ActiveExpiryScan start maxScanDuration clock (i + 2) rest items

/-- One cycle of `ActiveExpiry` after its sleep: `start := time.Now()` is
`clock 0`, then the entries are visited in the order `order`. -/
def ActiveExpiryCycle (c : Cache) (order : Items) (maxScanDuration : Int)
    (clock : Nat → Int) : Cache :=
  { c with items := ActiveExpiryScan (clock 0) maxScanDuration clock 0 order c.items }

/-- Zero or more scan cycles, one after the other, none of which reads the
clock later than `hi`; every cycle visits the entries of the state it starts
from. -/
inductive SweptUntil (hi : Int) : Cache → Cache → Prop
  | done (c : Cache) : SweptUntil hi c c
  | cycle (c c' : Cache) (order : Items) (maxScanDuration : Int) (clock : Nat → Int) :
      order.Perm c.items → (∀ i, clock i ≤ hi) →
      SweptUntil hi (ActiveExpiryCycle c order maxScanDuration clock) c' →
      SweptUntil hi c c'

/-! ## Histories -/

/-- The states a cache built by `NewCache` can be in: any sequence of
`AddItem`, `CheckNumber` and scan cycles, each scan visiting the entries of
the state it starts from. -/
inductive Reachable : Cache → Prop
  | new (ttl : Int) : Reachable (NewCache ttl)
  | add (c : Cache) (value now : Int) : Reachable c → Reachable (AddItem c value now)
  | check (c : Cache) (value now : Int) : Reachable c → Reachable (CheckNumber c value now).2
  | sweep (c : Cache) (order : Items) (maxScanDuration : Int) (clock : Nat → Int) :
      Reachable c → order.Perm c.items →
      Reachable (ActiveExpiryCycle c order maxScanDuration clock)

/-- Zero or more operations, one after the other, none of which is
`AddItem(k)` and none of which reads the clock later than `hi`: `AddItem` of
another key, `CheckNumber` of any key, scan cycles, each scan visiting the
entries of the state it starts from. -/
inductive HistoryUntil (k hi : Int) : Cache → Cache → Prop
  | done (c : Cache) : HistoryUntil k hi c c
  | add (c c' : Cache) (value now : Int) : value ≠ k → now ≤ hi →
      HistoryUntil k hi (AddItem c value now) c' → HistoryUntil k hi c c'
  | check (c c' : Cache) (value now : Int) : now ≤ hi →
      HistoryUntil k hi (CheckNumber c value now).2 c' → HistoryUntil k hi c c'
  | sweep (c c' : Cache) (order : Items) (maxScanDuration : Int) (clock : Nat → Int) :
      order.Perm c.items → (∀ i, clock i ≤ hi) →
      HistoryUntil k hi (ActiveExpiryCycle c order maxScanDuration clock) c' →
      HistoryUntil k hi c c'

/-- Zero or more operations, one after the other, none of which is
`AddItem(k)`: `AddItem` of another key, `CheckNumber` of any key, scan
cycles. -/
inductive StepsWithoutAdd (k : Int) : Cache → Cache → Prop
  | done (c : Cache) : StepsWithoutAdd k c c
  | add (c c' : Cache) (value now : Int) : value ≠ k →
      StepsWithoutAdd k (AddItem c value now) c' → StepsWithoutAdd k c c'
  | check (c c' : Cache) (value now : Int) :
      StepsWithoutAdd k (CheckNumber c value now).2 c' → StepsWithoutAdd k c c'
  | sweep (c c' : Cache) (order : Items) (maxScanDuration : Int) (clock : Nat → Int) :
      order.Perm c.items →
      StepsWithoutAdd k (ActiveExpiryCycle c order maxScanDuration clock) c' →
      StepsWithoutAdd k c c'

/-! ## Scenario of the sweep test -/

/-- The duration `time.Second`. -/
def Second : Int := 1000000000

/-- The duration `time.Millisecond`. -/
def Millisecond : Int := 1000000

/-- The calls `AddItem(k)` for the keys of `keys`, in order, all at the clock
reading `now`. -/
def insertKeys (c : Cache) (keys : List Int) (now : Int) : Cache :=
  keys.foldl (fun s k => AddItem s k now) c

/-- The keys of the sweep test: 0, 1, ..., 999. -/
def sweepTestKeys : List Int := (List.range 1000).map Int.ofNat

/-- A clock that reads 2s when the scan starts and 2s + 11ms at every later
reading: the scan is held up for 11ms before its first elapsed-time check. -/
def slowClock (i : Nat) : Int :=
  if i = 0 then 2 * Second else 2 * Second + 11 * Millisecond

/-! ## Run-time failures

The one run-time failure the operations could meet is an assignment to an
entry of a nil map.  `GoCache` is a cache whose map field may be nil, and its
operations return `none` where the Go code panics. -/

/-- A `Cache` value whose map field may be the nil map (`none`), as in the
zero value of the struct. -/
structure GoCache where
  items : Option Items
  ttl : Int
deriving DecidableEq, Repr

/-- A cache with an initialised map, as a `GoCache`. -/
def GoCache.ofCache (c : Cache) : GoCache :=
  { items := some c.items, ttl := c.ttl }

/-- The constructor `NewCache(ttl)`: the map is `make(map[int]CacheItem)`. -/
def GoCache.NewCache (ttl : Int) : GoCache :=
  { items := some [], ttl := ttl }

/-- The method `AddItem(value)`: the assignment panics on a nil map. -/
def GoCache.AddItem (c : GoCache) (value now : Int) : Option GoCache :=
  match c.items with
  | none => none
  | some m => some (GoCache.ofCache (ExpiringCache.AddItem { items := m, ttl := c.ttl } value now))

/-- The method `CheckNumber(value)`: indexing a nil map finds nothing. -/
def GoCache.CheckNumber (c : GoCache) (value now : Int) : Option (Bool × GoCache) :=
  match c.items with
  | none => some (false, c)
  | some m =>
    some ((ExpiringCache.CheckNumber { items := m, ttl := c.ttl } value now).1,
      GoCache.ofCache (ExpiringCache.CheckNumber { items := m, ttl := c.ttl } value now).2)

/-- One cycle of `ActiveExpiry`: ranging over a nil map visits nothing. -/
def GoCache.ActiveExpiryCycle (c : GoCache) (order : Items) (maxScanDuration : Int)
    (clock : Nat → Int) : Option GoCache :=
  match c.items with
  | none => some c
  | some m =>
    some (GoCache.ofCache
      (ExpiringCache.ActiveExpiryCycle { items := m, ttl := c.ttl } order maxScanDuration clock))

/-- The states a `GoCache` built by `NewCache` can be in, through operations
that returned. -/
inductive GoCache.Reachable : GoCache → Prop
  | new (ttl : Int) : GoCache.Reachable (GoCache.NewCache ttl)
  | add (c c' : GoCache) (value now : Int) : GoCache.Reachable c →
      GoCache.AddItem c value now = some c' → GoCache.Reachable c'
  | check (c : GoCache) (r : Bool × GoCache) (value now : Int) : GoCache.Reachable c →
      GoCache.CheckNumber c value now = some r → GoCache.Reachable r.2
  | sweep (c c' : GoCache) (order : Items) (maxScanDuration : Int) (clock : Nat → Int) :
      GoCache.Reachable c →
      GoCache.ActiveExpiryCycle c order maxScanDuration clock = some c' →
      GoCache.Reachable c'

/-! ## Map lemmas -/

theorem mapGet_mapDelete_self (m : Items) (k : Int) : mapGet (mapDelete m k) k = none := by
  induction m with
  | nil => rfl
  | cons e m ih =>
    obtain ⟨j, v⟩ := e
    by_cases h : j = k
    · simpa [mapDelete, h] using ih
    · simpa [mapDelete, h, mapGet] using ih

theorem mapGet_mapDelete_ne (m : Items) {k j : Int} (h : j ≠ k) :
    mapGet (mapDelete m k) j = mapGet m j := by
  induction m with
  | nil => rfl
  | cons e m ih =>
    obtain ⟨i, v⟩ := e
    by_cases hi : i = k
    · subst hi
      have : ¬ i = j := fun e => h e.symm
      simpa [mapDelete, mapGet, this] using ih
    · by_cases hj : i = j
      · subst hj
        simp [mapDelete, mapGet, hi]
      · simpa [mapDelete, mapGet, hi, hj] using ih

theorem mapGet_mapSet_self (m : Items) (k : Int) (v : CacheItem) :
    mapGet (mapSet m k v) k = some v := by
  simp [mapSet, mapGet]

theorem mapGet_mapSet_ne (m : Items) {k j : Int} (v : CacheItem) (h : j ≠ k) :
    mapGet (mapSet m k v) j = mapGet m j := by
  have : ¬ k = j := fun e => h e.symm
  simp [mapSet, mapGet, this, mapGet_mapDelete_ne m h]

theorem mapDelete_mapDelete (m : Items) (k : Int) :
    mapDelete (mapDelete m k) k = mapDelete m k := by
  simp [mapDelete, List.filter_filter]

theorem mapDelete_mapSet (m : Items) (k : Int) (v : CacheItem) :
    mapDelete (mapSet m k v) k = mapDelete m k := by
  simp [mapSet, mapDelete, List.filter_filter]

theorem mapGet_eq_none_iff (m : Items) (k : Int) :
    mapGet m k = none ↔ k ∉ m.map Prod.fst := by
  induction m with
  | nil => simp [mapGet]
  | cons e m ih =>
    obtain ⟨j, v⟩ := e
    by_cases h : j = k
    · simp [mapGet, h]
    · have h' : ¬ k = j := fun e => h e.symm
      simp only [mapGet, h, if_false, ih, List.map_cons, List.mem_cons, h', false_or]

theorem mapDelete_of_absent (m : Items) (k : Int) (h : mapGet m k = none) :
    mapDelete m k = m := by
  rw [mapGet_eq_none_iff] at h
  simp only [mapDelete, List.filter_eq_self]
  intro e he
  have : e.1 ≠ k := fun hk => h (hk ▸ List.mem_map_of_mem Prod.fst he)
  simpa using this

/-! ## Lookup -/

theorem checkNumber_absent (c : Cache) (k now : Int) (h : mapGet c.items k = none) :
    CheckNumber c k now = (false, c) := by
  simp [CheckNumber, h]

theorem checkNumber_live (c : Cache) (k now : Int) (item : CacheItem)
    (h : mapGet c.items k = some item) (hn : now ≤ item.expiryTime) :
    CheckNumber c k now = (true, c) := by
  simp [CheckNumber, h, After, not_lt.mpr hn]

theorem checkNumber_stale (c : Cache) (k now : Int) (item : CacheItem)
    (h : mapGet c.items k = some item) (hn : item.expiryTime < now) :
    CheckNumber c k now = (false, { c with items := mapDelete c.items k }) := by
  simp [CheckNumber, h, After, hn]

theorem checkNumber_fst_eq_true_iff (c : Cache) (k now : Int) :
    (CheckNumber c k now).1 = true ↔
      ∃ item, mapGet c.items k = some item ∧ now ≤ item.expiryTime := by
  cases h : mapGet c.items k with
  | none => simp [checkNumber_absent c k now h]
  | some item =>
    by_cases hn : now ≤ item.expiryTime
    · simp [checkNumber_live c k now item h hn, hn]
    · simp [checkNumber_stale c k now item h (not_le.mp hn), hn]

theorem mapGet_mapDelete_some (m : Items) {k j : Int} {w : CacheItem}
    (h : mapGet (mapDelete m k) j = some w) : j ≠ k ∧ mapGet m j = some w := by
  by_cases hj : j = k
  · subst hj
    rw [mapGet_mapDelete_self] at h
    exact absurd h (by simp)
  · exact ⟨hj, (mapGet_mapDelete_ne m hj).symm.trans h⟩

theorem mapDelete_sublist (m : Items) (k : Int) : (mapDelete m k).Sublist m :=
  List.filter_sublist m

theorem mem_mapDelete (m : Items) (k : Int) (e : Int × CacheItem) :
    e ∈ mapDelete m k ↔ e ∈ m ∧ e.1 ≠ k := by
  simp [mapDelete]

theorem mapGet_of_mem (m : Items) (hm : (m.map Prod.fst).Nodup) {k : Int} {v : CacheItem}
    (h : (k, v) ∈ m) : mapGet m k = some v := by
  induction m with
  | nil => simp at h
  | cons e m ih =>
    obtain ⟨j, w⟩ := e
    rw [List.map_cons, List.nodup_cons] at hm
    rcases List.mem_cons.mp h with h | h
    · cases h
      simp [mapGet]
    · have hk : k ∈ m.map Prod.fst := List.mem_map_of_mem Prod.fst h
      have hj : ¬ j = k := fun e => hm.1 (e ▸ hk)
      simpa [mapGet, hj] using ih hm.2 h

theorem mem_of_mapGet (m : Items) {k : Int} {v : CacheItem} (h : mapGet m k = some v) :
    (k, v) ∈ m := by
  induction m with
  | nil => simp [mapGet] at h
  | cons e m ih =>
    obtain ⟨j, w⟩ := e
    by_cases hj : j = k
    · subst hj
      simp only [mapGet, if_true, Option.some.injEq] at h
      subst h
      exact List.mem_cons_self _ _
    · simp only [mapGet, hj, if_false] at h
      exact List.mem_cons_of_mem _ (ih h)

theorem wf_of_sublist {a b : Items} (h : a.Sublist b) (hb : (b.map Prod.fst).Nodup) :
    (a.map Prod.fst).Nodup :=
  (h.map Prod.fst).nodup hb

/-! ## Scan -/

theorem scan_sublist (start msd : Int) (clock : Nat → Int) (order : Items) :
    ∀ (i : Nat) (items : Items),
      (ActiveExpiryScan start msd clock i order items).Sublist items := by
  induction order with
  | nil => intro i items; simp [ActiveExpiryScan]
  | cons e rest ih =>
    intro i items
    obtain ⟨k, v⟩ := e
    simp only [ActiveExpiryScan]
    split
    · exact List.Sublist.refl _
    · split
      · exact (ih _ _).trans (mapDelete_sublist _ _)
      · exact ih _ _

/-- A scan yields a sub-mapping: what it still holds, it held before. -/
theorem scan_get_some (start msd : Int) (clock : Nat → Int) (order : Items) :
    ∀ (i : Nat) (items : Items) (j : Int) (w : CacheItem),
      mapGet (ActiveExpiryScan start msd clock i order items) j = some w →
      mapGet items j = some w := by
  induction order with
  | nil => intro i items j w h; simpa [ActiveExpiryScan] using h
  | cons e rest ih =>
    intro i items j w h
    obtain ⟨k, v⟩ := e
    simp only [ActiveExpiryScan] at h
    split at h
    · exact h
    · split at h
      · exact (mapGet_mapDelete_some items (ih _ _ _ _ h)).2
      · exact ih _ _ _ _ h

/-- A key a scan removed was visited, and found expired at the clock reading
of its expiry decision. -/
theorem scan_get_none (start msd : Int) (clock : Nat → Int) (order : Items) :
    ∀ (i : Nat) (items : Items) (j : Int) (w : CacheItem),
      mapGet items j = some w →
      mapGet (ActiveExpiryScan start msd clock i order items) j = none →
      ∃ n v, order[n]? = some (j, v) ∧ v.expiryTime < clock (i + 2 * n + 2) := by
  induction order with
  | nil =>
    intro i items j w h h'
    simp only [ActiveExpiryScan] at h'
    rw [h] at h'
    exact absurd h' (by simp)
  | cons e rest ih =>
    intro i items j w h h'
    obtain ⟨k, v⟩ := e
    simp only [ActiveExpiryScan] at h'
    split at h'
    · rw [h] at h'
      exact absurd h' (by simp)
    · split at h'
      next hstale =>
        by_cases hk : j = k
        · subst hk
          refine ⟨0, v, by simp, ?_⟩
          simpa [After] using hstale
        · obtain ⟨n, v', hn, hv⟩ :=
            ih _ _ j w ((mapGet_mapDelete_ne items hk).trans h) h'
          refine ⟨n + 1, v', by simpa using hn, ?_⟩
          have : i + 2 * (n + 1) + 2 = i + 2 + 2 * n + 2 := by ring
          rw [this]
          exact hv
      next =>
        obtain ⟨n, v', hn, hv⟩ := ih _ _ j w h h'
        refine ⟨n + 1, v', by simpa using hn, ?_⟩
        have : i + 2 * (n + 1) + 2 = i + 2 + 2 * n + 2 := by ring
        rw [this]
        exact hv

/-- A scan that never breaks leaves no visited entry that is older than every
clock reading. -/
theorem scan_full_mem (start msd lo : Int) (clock : Nat → Int) (hlo : ∀ j, lo ≤ clock j)
    (e : Int × CacheItem) (order : Items) :
    ∀ (i : Nat) (items : Items),
      (∀ n, n < order.length → Since (clock (i + 2 * n + 1)) start ≤ msd) →
      e ∈ ActiveExpiryScan start msd clock i order items →
      e ∈ order → lo ≤ e.2.expiryTime := by
  induction order with
  | nil => intro i items _ _ h; simp at h
  | cons x rest ih =>
    intro i items hb hres hord
    obtain ⟨k, v⟩ := x
    have h0 : ¬ Since (clock (i + 1)) start > msd := by
      have := hb 0 (by simp)
      simpa using this
    have hb' : ∀ n, n < rest.length → Since (clock (i + 2 + 2 * n + 1)) start ≤ msd := by
      intro n hn
      have := hb (n + 1) (by simpa using hn)
      have e2 : i + 2 * (n + 1) + 1 = i + 2 + 2 * n + 1 := by ring
      rwa [e2] at this
    simp only [ActiveExpiryScan, h0, if_false] at hres
    split at hres
    next hstale =>
      have hdel := (scan_sublist start msd clock rest (i + 2) (mapDelete items k)).subset hres
      have hne : e.1 ≠ k := ((mem_mapDelete items k e).mp hdel).2
      rcases List.mem_cons.mp hord with h | h
      · exact absurd (by rw [h]) hne
      · exact ih _ _ hb' hres h
    next hlive =>
      rcases List.mem_cons.mp hord with h | h
      · subst h
        have : ¬ v.expiryTime < clock (i + 2) := by simpa [After] using hlive
        exact le_trans (hlo (i + 2)) (not_lt.mp this)
      · exact ih _ _ hb' hres h

/-- Entries whose key the scan does not visit stay in the mapping. -/
theorem scan_mem_of_not_visited (start msd : Int) (clock : Nat → Int)
    (e : Int × CacheItem) (order : Items) :
    ∀ (i : Nat) (items : Items),
      e ∈ items → e.1 ∉ order.map Prod.fst →
      e ∈ ActiveExpiryScan start msd clock i order items := by
  induction order with
  | nil => intro i items h _; simpa [ActiveExpiryScan] using h
  | cons x rest ih =>
    intro i items h hk
    obtain ⟨k, v⟩ := x
    simp only [List.map_cons, List.mem_cons, not_or] at hk
    simp only [ActiveExpiryScan]
    split
    · exact h
    · split
      · exact ih _ _ ((mem_mapDelete items k e).mpr ⟨h, hk.1⟩) hk.2
      · exact ih _ _ h hk.2

/-- A scan that breaks at the entry after `pre` is the scan of `pre` alone. -/
theorem scan_append_break (start msd : Int) (clock : Nat → Int)
    (e : Int × CacheItem) (post : Items) (pre : Items) :
    ∀ (i : Nat) (items : Items),
      msd < Since (clock (i + 2 * pre.length + 1)) start →
      ActiveExpiryScan start msd clock i (pre ++ e :: post) items =
        ActiveExpiryScan start msd clock i pre items := by
  induction pre with
  | nil =>
    intro i items h
    obtain ⟨k, v⟩ := e
    have h' : Since (clock (i + 1)) start > msd := by simpa using h
    simp [ActiveExpiryScan, h']
  | cons x rest ih =>
    intro i items h
    obtain ⟨k, v⟩ := x
    have e2 : i + 2 * (rest.length + 1) + 1 = i + 2 + 2 * rest.length + 1 := by ring
    rw [List.length_cons, e2] at h
    simp only [List.cons_append, ActiveExpiryScan]
    split
    · rfl
    · split
      · exact ih _ _ h
      · exact ih _ _ h

theorem mapGet_none_of_sublist {a b : Items} (h : a.Sublist b) (k : Int)
    (hb : mapGet b k = none) : mapGet a k = none := by
  rw [mapGet_eq_none_iff] at hb ⊢
  exact fun hk => hb ((h.map Prod.fst).subset hk)

/-- A scan that does not break before position `n` removes the entry visited
there when it finds it expired. -/
theorem scan_visited_stale (start msd : Int) (clock : Nat → Int) (order : Items) :
    ∀ (i : Nat) (items : Items) (n : Nat) (k : Int) (v : CacheItem),
      (∀ p, p ≤ n → Since (clock (i + 2 * p + 1)) start ≤ msd) →
      order[n]? = some (k, v) → v.expiryTime < clock (i + 2 * n + 2) →
      mapGet (ActiveExpiryScan start msd clock i order items) k = none := by
  induction order with
  | nil => intro i items n k v _ h; simp at h
  | cons x rest ih =>
    intro i items n k v hb hn hv
    obtain ⟨j, w⟩ := x
    have h0 : ¬ Since (clock (i + 1)) start > msd := by
      have := hb 0 (Nat.zero_le n)
      simpa using this
    simp only [ActiveExpiryScan, h0, if_false]
    cases n with
    | zero =>
      simp only [List.getElem?_cons_zero, Option.some.injEq, Prod.mk.injEq] at hn
      obtain ⟨hj, hw⟩ := hn
      subst hj hw
      have hstale : After (clock (i + 2)) w.expiryTime = true := by
        simpa [After] using hv
      simp only [hstale, if_true]
      exact mapGet_none_of_sublist (scan_sublist _ _ _ _ _ _) j (mapGet_mapDelete_self items j)
    | succ n =>
      have hn' : rest[n]? = some (k, v) := by simpa using hn
      have e2 : i + 2 * (n + 1) + 2 = i + 2 + 2 * n + 2 := by ring
      rw [e2] at hv
      have hb' : ∀ p, p ≤ n → Since (clock (i + 2 + 2 * p + 1)) start ≤ msd := by
        intro p hp
        have := hb (p + 1) (Nat.succ_le_succ hp)
        have e3 : i + 2 * (p + 1) + 1 = i + 2 + 2 * p + 1 := by ring
        rwa [e3] at this
      split
      · exact ih _ _ n k v hb' hn' hv
      · exact ih _ _ n k v hb' hn' hv

/-- One scan cycle does not change the answer of a lookup made at a reading
`hi` that is not earlier than the cycle's expiry decisions. -/
theorem cycle_checkNumber_fst (c : Cache) (order : Items) (msd : Int) (clock : Nat → Int)
    (hi : Int) (hwf : WF c) (hperm : order.Perm c.items)
    (hclock : ∀ n, n < order.length → clock (2 * n + 2) ≤ hi) (k : Int) :
    (CheckNumber (ActiveExpiryCycle c order msd clock) k hi).1 = (CheckNumber c k hi).1 := by
  cases h' : mapGet (ActiveExpiryCycle c order msd clock).items k with
  | some w =>
    have h := scan_get_some _ _ _ _ _ _ _ _ h'
    by_cases hn : hi ≤ w.expiryTime
    · rw [checkNumber_live _ k hi w h' hn, checkNumber_live c k hi w h hn]
    · rw [checkNumber_stale _ k hi w h' (not_le.mp hn),
        checkNumber_stale c k hi w h (not_le.mp hn)]
  | none =>
    rw [checkNumber_absent _ k hi h']
    cases h : mapGet c.items k with
    | none => rw [checkNumber_absent c k hi h]
    | some w =>
      obtain ⟨n, v, hn, hv⟩ := scan_get_none _ _ _ _ _ _ _ _ h h'
      have hlt : n < order.length := by
        by_contra hge
        rw [List.getElem?_eq_none (not_lt.mp hge)] at hn
        exact absurd hn (by simp)
      have hmem : (k, v) ∈ c.items := hperm.subset (List.getElem?_mem hn)
      have hvw : v = w := by
        have := mapGet_of_mem c.items hwf hmem
        rw [h] at this
        exact (Option.some.inj this).symm
      subst hvw
      have hc := hclock n hlt
      simp only [zero_add] at hv
      rw [checkNumber_stale c k hi v h (lt_of_lt_of_le hv hc)]

theorem cycle_wf (c : Cache) (order : Items) (msd : Int) (clock : Nat → Int) (hwf : WF c) :
    WF (ActiveExpiryCycle c order msd clock) :=
  wf_of_sublist (scan_sublist _ _ _ _ _ _) hwf

theorem sweptUntil_checkNumber_fst (hi : Int) (k : Int) (a b : Cache)
    (h : SweptUntil hi a b) (hwf : WF a) :
    (CheckNumber b k hi).1 = (CheckNumber a k hi).1 := by
  induction h with
  | done c => rfl
  | cycle c c' order msd clock hperm hclock _ ih =>
    rw [ih (cycle_wf c order msd clock hwf)]
    exact cycle_checkNumber_fst c order msd clock hi hwf hperm (fun n _ => hclock _) k

/-- C2: `CheckNumber(k)` returns true exactly when `k` is present in the
mapping and the clock reading is not later than the entry's expiry time; it
returns false when `k` is absent and when `k` is present with a clock reading
later than the expiry time. -/
theorem checkNumber_hit_iff (c : Cache) (k now : Int) :
    ((CheckNumber c k now).1 = true ↔
        ∃ item, mapGet c.items k = some item ∧ now ≤ item.expiryTime) ∧
      (mapGet c.items k = none → (CheckNumber c k now).1 = false) ∧
      (∀ item, mapGet c.items k = some item → item.expiryTime < now →
        (CheckNumber c k now).1 = false) := by
  refine ⟨checkNumber_fst_eq_true_iff c k now, ?_, ?_⟩
  · intro h
    rw [checkNumber_absent c k now h]
  · intro item h hn
    rw [checkNumber_stale c k now item h hn]

/-- C2 at a concrete state: key 1 live until 5, key 2 absent. -/
theorem checkNumber_hit_iff_witness :
    (CheckNumber ⟨[(1, ⟨1, 5⟩)], 5⟩ 1 5).1 = true ∧
      (CheckNumber ⟨[(1, ⟨1, 5⟩)], 5⟩ 2 5).1 = false ∧
      (CheckNumber ⟨[(1, ⟨1, 5⟩)], 5⟩ 1 6).1 = false :=
  ⟨(checkNumber_hit_iff ⟨[(1, ⟨1, 5⟩)], 5⟩ 1 5).1.mpr ⟨⟨1, 5⟩, by decide, by decide⟩,
    (checkNumber_hit_iff ⟨[(1, ⟨1, 5⟩)], 5⟩ 2 5).2.1 (by decide),
    (checkNumber_hit_iff ⟨[(1, ⟨1, 5⟩)], 5⟩ 1 6).2.2 ⟨1, 5⟩ (by decide) (by decide)⟩

/-- C3: a `CheckNumber(k)` that returns true, or finds `k` absent, leaves the
state (mapping and ttl) unchanged; one that finds `k` expired leaves the ttl
unchanged and the mapping without `k`, every other key looked up as before;
so after any `CheckNumber(k)` that returns false the mapping does not hold
`k`. -/
theorem checkNumber_frame (c : Cache) (k now : Int) :
    ((CheckNumber c k now).1 = true ∨ mapGet c.items k = none →
        (CheckNumber c k now).2 = c) ∧
      (∀ item, mapGet c.items k = some item → item.expiryTime < now →
        (CheckNumber c k now).2.ttl = c.ttl ∧
        mapGet (CheckNumber c k now).2.items k = none ∧
        ∀ j, j ≠ k → mapGet (CheckNumber c k now).2.items j = mapGet c.items j) ∧
      ((CheckNumber c k now).1 = false →
        mapGet (CheckNumber c k now).2.items k = none) := by
  refine ⟨?_, ?_, ?_⟩
  · rintro (h | h)
    · obtain ⟨item, hi, hn⟩ := (checkNumber_fst_eq_true_iff c k now).mp h
      rw [checkNumber_live c k now item hi hn]
    · rw [checkNumber_absent c k now h]
  · intro item h hn
    rw [checkNumber_stale c k now item h hn]
    exact ⟨rfl, mapGet_mapDelete_self c.items k, fun j hj => mapGet_mapDelete_ne c.items hj⟩
  · intro h
    cases hg : mapGet c.items k with
    | none => rw [checkNumber_absent c k now hg]; exact hg
    | some item =>
      by_cases hn : now ≤ item.expiryTime
      · rw [checkNumber_live c k now item hg hn] at h
        exact absurd h (by simp)
      · rw [checkNumber_stale c k now item hg (not_le.mp hn)]
        exact mapGet_mapDelete_self c.items k

/-- C3 scenario, in nanoseconds: ttl 5s, insert 42 at 0; the lookup at 3s hits
and leaves the state as it was, the lookup at 6s misses and 42 is gone. -/
theorem checkNumber_frame_witness :
    (CheckNumber (AddItem (NewCache 5000000000) 42 0) 42 3000000000).1 = true ∧
      (CheckNumber (AddItem (NewCache 5000000000) 42 0) 42 3000000000).2 =
        AddItem (NewCache 5000000000) 42 0 ∧
      (CheckNumber (AddItem (NewCache 5000000000) 42 0) 42 6000000000).1 = false ∧
      mapGet (CheckNumber (AddItem (NewCache 5000000000) 42 0) 42 6000000000).2.items 42
        = none :=
  ⟨by decide,
    (checkNumber_frame (AddItem (NewCache 5000000000) 42 0) 42 3000000000).1
      (Or.inl (by decide)),
    by decide,
    (checkNumber_frame (AddItem (NewCache 5000000000) 42 0) 42 6000000000).2.2 (by decide)⟩

/-! ## Insert -/

/-- C4: `AddItem(v)` at clock reading `now` leaves key `v` mapped to the entry
with value `v` and expiry time `now + ttl`, whether or not `v` was present;
every other key is looked up as before and the ttl is unchanged. -/
theorem addItem_spec (c : Cache) (v now : Int) :
    mapGet (AddItem c v now).items v = some { value := v, expiryTime := now + c.ttl } ∧
      (∀ j, j ≠ v → mapGet (AddItem c v now).items j = mapGet c.items j) ∧
      (AddItem c v now).ttl = c.ttl :=
  ⟨mapGet_mapSet_self _ _ _, fun _ hj => mapGet_mapSet_ne _ _ hj, rfl⟩

/-- C4 at a concrete state: inserting 1 at reading 10 over an older entry for
1 leaves the entry for 2 as it was. -/
theorem addItem_spec_witness :
    mapGet (AddItem ⟨[(1, ⟨1, 3⟩), (2, ⟨2, 4⟩)], 5⟩ 1 10).items 2 = some ⟨2, 4⟩ :=
  ((addItem_spec ⟨[(1, ⟨1, 3⟩), (2, ⟨2, 4⟩)], 5⟩ 1 10).2.1 2 (by decide)).trans (by decide)

/-- C5: re-insert is last-write-wins with a full lifetime reset: `AddItem(k)`
at `t` followed by `AddItem(k)` at a later `t2` gives the state of `AddItem(k)`
at `t2` alone, and `k` then expires at `t2 + ttl`. -/
theorem addItem_addItem (c : Cache) (k t t2 : Int) (_h : t < t2) :
    AddItem (AddItem c k t) k t2 = AddItem c k t2 ∧
      mapGet (AddItem (AddItem c k t) k t2).items k =
        some { value := k, expiryTime := t2 + c.ttl } := by
  have h : AddItem (AddItem c k t) k t2 = AddItem c k t2 := by
    simp [AddItem, mapSet, mapDelete, List.filter_filter]
  exact ⟨h, h ▸ mapGet_mapSet_self _ _ _⟩

/-- C5 with ttl 5: the re-insert at 3 comes before the first expiry at 5. -/
theorem addItem_addItem_witness :
    (0 : Int) < 3 ∧ (3 : Int) < 0 + (NewCache 5).ttl ∧
      AddItem (AddItem (NewCache 5) 1 0) 1 3 = AddItem (NewCache 5) 1 3 ∧
      mapGet (AddItem (AddItem (NewCache 5) 1 0) 1 3).items 1 =
        some { value := 1, expiryTime := 3 + (NewCache 5).ttl } :=
  ⟨by decide, by decide, addItem_addItem (NewCache 5) 1 0 3 (by decide)⟩

/-! ## Lifetime window -/

theorem addItem_wf (c : Cache) (value now : Int) (hwf : WF c) : WF (AddItem c value now) := by
  have hsub : (mapDelete c.items value).Sublist c.items := mapDelete_sublist _ _
  have hnd : ((mapDelete c.items value).map Prod.fst).Nodup := wf_of_sublist hsub hwf
  have hk : value ∉ (mapDelete c.items value).map Prod.fst :=
    (mapGet_eq_none_iff _ _).mp (mapGet_mapDelete_self c.items value)
  exact List.nodup_cons.mpr ⟨hk, hnd⟩

theorem checkNumber_wf (c : Cache) (value now : Int) (hwf : WF c) :
    WF (CheckNumber c value now).2 := by
  cases hg : mapGet c.items value with
  | none => rw [checkNumber_absent c value now hg]; exact hwf
  | some item =>
    by_cases hn : now ≤ item.expiryTime
    · rw [checkNumber_live c value now item hg hn]; exact hwf
    · rw [checkNumber_stale c value now item hg (not_le.mp hn)]
      exact wf_of_sublist (mapDelete_sublist c.items value) hwf

theorem reachable_wf (c : Cache) (h : Reachable c) : WF c := by
  induction h with
  | new ttl => simp [WF, NewCache]
  | add c value now _ ih => exact addItem_wf c value now ih
  | check c value now _ ih => exact checkNumber_wf c value now ih
  | sweep c order msd clock _ _ ih => exact cycle_wf c order msd clock ih

/-- The answer of a lookup depends on the entry under its key only. -/
theorem checkNumber_fst_congr (a b : Cache) (k now : Int)
    (h : mapGet a.items k = mapGet b.items k) :
    (CheckNumber a k now).1 = (CheckNumber b k now).1 := by
  unfold CheckNumber
  rw [h]
  cases mapGet b.items k with
  | none => rfl
  | some item => by_cases hs : After now item.expiryTime = true <;> simp [hs]

/-- A lookup made at a reading not later than `hi` does not change the answer
of a lookup of `k` at `hi`. -/
theorem checkNumber_checkNumber_fst (c : Cache) (value now k hi : Int) (hnow : now ≤ hi) :
    (CheckNumber (CheckNumber c value now).2 k hi).1 = (CheckNumber c k hi).1 := by
  cases hg : mapGet c.items value with
  | none => rw [checkNumber_absent c value now hg]
  | some item =>
    by_cases hn : now ≤ item.expiryTime
    · rw [checkNumber_live c value now item hg hn]
    · rw [checkNumber_stale c value now item hg (not_le.mp hn)]
      by_cases hk : k = value
      · subst hk
        rw [checkNumber_absent _ k hi (mapGet_mapDelete_self c.items k),
          checkNumber_stale c k hi item hg (lt_of_lt_of_le (not_le.mp hn) hnow)]
      · exact checkNumber_fst_congr _ c k hi (mapGet_mapDelete_ne c.items hk)

theorem historyUntil_checkNumber_fst (k hi : Int) (a b : Cache)
    (h : HistoryUntil k hi a b) (hwf : WF a) :
    (CheckNumber b k hi).1 = (CheckNumber a k hi).1 := by
  induction h with
  | done c => rfl
  | add c c' value now hne _ _ ih =>
    rw [ih (addItem_wf c value now hwf)]
    exact checkNumber_fst_congr _ c k hi (mapGet_mapSet_ne c.items _ (Ne.symm hne))
  | check c c' value now hnow _ ih =>
    rw [ih (checkNumber_wf c value now hwf)]
    exact checkNumber_checkNumber_fst c value now k hi hnow
  | sweep c c' order msd clock hperm hclock _ ih =>
    rw [ih (cycle_wf c order msd clock hwf)]
    exact cycle_checkNumber_fst c order msd clock hi hwf hperm (fun n _ => hclock _) k

/-- C1, as amended: on a cache built by `NewCache(T)` with `T ≥ 0`, in any
state `s0` it has come to (any state with unique keys and ttl `T`), after
`AddItem(k)` at time `t` and then any operations that do not re-insert `k` and
read the clock no later than `c` (inserts of other keys, lookups of any key,
scan cycles in any order and with any budget), `CheckNumber(k)` at a time
`c ≥ t` returns true when `c` is in the closed window `[t, t + T]` and false
when `c > t + T`. -/
theorem lookup_ttl_window (s0 s : Cache) (k T t c : Int) (_hT : 0 ≤ T) (_htc : t ≤ c)
    (hwf : WF s0) (httl : s0.ttl = T) (hs : HistoryUntil k c (AddItem s0 k t) s) :
    (c ≤ t + T → (CheckNumber s k c).1 = true) ∧
      (t + T < c → (CheckNumber s k c).1 = false) := by
  have hget : mapGet (AddItem s0 k t).items k =
      some { value := k, expiryTime := t + T } := by
    rw [← httl]
    exact mapGet_mapSet_self _ _ _
  rw [historyUntil_checkNumber_fst k c _ s hs (addItem_wf s0 k t hwf)]
  constructor
  · intro h
    rw [checkNumber_live _ k c _ hget h]
  · intro h
    rw [checkNumber_stale _ k c _ hget h]

/-- C1 on the cache `NewCache(5)` already holding key 2 (inserted at -3): key
1 is inserted at 0; then key 3 is inserted at 1, the lookup of key 2 at 3
removes its expired entry, and a scan cycle runs at reading 4; the lookup of
key 1 at 5, the end of its window, hits. -/
theorem lookup_ttl_window_witness :
    (NewCache 5).ttl = 5 ∧
      (CheckNumber
        (ActiveExpiryCycle
          (CheckNumber (AddItem (AddItem (AddItem (NewCache 5) 2 (-3)) 1 0) 3 1) 2 3).2
          [(1, ⟨1, 5⟩), (3, ⟨3, 6⟩)] 10 (fun _ => 4)) 1 5).1 = true :=
  ⟨rfl,
    (lookup_ttl_window (AddItem (NewCache 5) 2 (-3))
      (ActiveExpiryCycle
        (CheckNumber (AddItem (AddItem (AddItem (NewCache 5) 2 (-3)) 1 0) 3 1) 2 3).2
        [(1, ⟨1, 5⟩), (3, ⟨3, 6⟩)] 10 (fun _ => 4))
      1 5 0 5 (by decide) (by decide)
      (reachable_wf _ (Reachable.add _ 2 (-3) (Reachable.new 5))) rfl
      (HistoryUntil.add _ _ 3 1 (by decide) (by decide)
        (HistoryUntil.check _ _ 2 3 (by decide)
          (HistoryUntil.sweep _ _ [(1, ⟨1, 5⟩), (3, ⟨3, 6⟩)] 10 (fun _ => 4)
            (List.Perm.swap _ _ _) (fun _ => show (4 : Int) ≤ 5 by decide)
            (HistoryUntil.done _))))).1 (by decide)⟩

/-- C1 as stated fails at the end of the window: with ttl 5 and an insert at
0, the check time 5 is not earlier than `0 + 5`, and the lookup hits. -/
theorem lookup_ttl_window_counterexample :
    ¬ ((0 : Int) ≤ 5 → (0 : Int) + 5 ≤ 5 →
        (CheckNumber (AddItem (NewCache 5) 1 0) 1 5).1 = false) :=
  fun h => absurd (h (by decide) (by decide)) (by decide)

/-! ## Active sweep -/

/-- C6: one scan cycle over a state (any iteration order, any
`maxScanDuration`, completed or abandoned, non-decreasing clock) does not
change the hit or miss answer of `CheckNumber(k)` at any later clock reading;
in particular an expired entry the scan left behind returns miss. -/
theorem sweep_preserves_lookup (c : Cache) (order : Items) (maxScanDuration : Int)
    (clock : Nat → Int) (k later : Int) (hwf : WF c) (hperm : order.Perm c.items)
    (hmono : Monotone clock) (hlater : clock (2 * order.length) ≤ later) :
    (CheckNumber (ActiveExpiryCycle c order maxScanDuration clock) k later).1 =
        (CheckNumber c k later).1 ∧
      (∀ item, mapGet (ActiveExpiryCycle c order maxScanDuration clock).items k = some item →
        item.expiryTime < later →
        (CheckNumber (ActiveExpiryCycle c order maxScanDuration clock) k later).1 = false) := by
  refine ⟨cycle_checkNumber_fst c order maxScanDuration clock later hwf hperm ?_ k, ?_⟩
  · intro n hn
    exact le_trans (hmono (by omega)) hlater
  · intro item h hn
    rw [checkNumber_stale _ k later item h hn]

/-- C6 on a scan abandoned at its first entry (budget 0, one tick a reading):
the expired entry for 1 stays in the mapping and still misses at reading 9. -/
theorem sweep_preserves_lookup_witness :
    mapGet (ActiveExpiryCycle ⟨[(1, ⟨1, 0⟩), (2, ⟨2, 9⟩)], 5⟩ [(2, ⟨2, 9⟩), (1, ⟨1, 0⟩)] 0
        (fun i => (i : Int))).items 1 = some ⟨1, 0⟩ ∧
      (CheckNumber (ActiveExpiryCycle ⟨[(1, ⟨1, 0⟩), (2, ⟨2, 9⟩)], 5⟩
        [(2, ⟨2, 9⟩), (1, ⟨1, 0⟩)] 0 (fun i => (i : Int))) 1 9).1 = false :=
  ⟨by decide,
    (sweep_preserves_lookup ⟨[(1, ⟨1, 0⟩), (2, ⟨2, 9⟩)], 5⟩ [(2, ⟨2, 9⟩), (1, ⟨1, 0⟩)] 0
      (fun i => (i : Int)) 1 9 (by decide) (List.Perm.swap _ _ _)
      (fun _ _ h => Int.ofNat_le.mpr h) (by decide)).2 ⟨1, 0⟩ (by decide) (by decide)⟩

/-- C7: a scan cycle that visits every entry without taking the early break,
under a non-decreasing clock, leaves no entry whose expiry time is earlier
than the scan-start timestamp `clock 0`. -/
theorem full_scan_removes_stale (c : Cache) (order : Items) (maxScanDuration : Int)
    (clock : Nat → Int) (hperm : order.Perm c.items) (hmono : Monotone clock)
    (hfull : ∀ n, n < order.length → Since (clock (2 * n + 1)) (clock 0) ≤ maxScanDuration) :
    (∀ e, e ∈ (ActiveExpiryCycle c order maxScanDuration clock).items →
        ¬ e.2.expiryTime < clock 0) ∧
      (∀ k v, mapGet (ActiveExpiryCycle c order maxScanDuration clock).items k = some v →
        ¬ v.expiryTime < clock 0) := by
  have key : ∀ e, e ∈ (ActiveExpiryCycle c order maxScanDuration clock).items →
      ¬ e.2.expiryTime < clock 0 := by
    intro e he
    have hitems : e ∈ c.items := (scan_sublist _ _ _ _ _ _).subset he
    have hord : e ∈ order := hperm.symm.subset hitems
    refine not_lt.mpr (scan_full_mem (clock 0) maxScanDuration (clock 0) clock
      (fun j => hmono (Nat.zero_le j)) e order 0 c.items ?_ he hord)
    intro n hn
    simpa using hfull n hn
  exact ⟨key, fun k v h => key (k, v) (mem_of_mapGet _ h)⟩

/-- C7 on a two-entry state scanned at reading 10 with budget 100: the entry
expired at 3 is gone, the entry live until 20 is left. -/
theorem full_scan_removes_stale_witness :
    (ActiveExpiryCycle ⟨[(1, ⟨1, 3⟩), (2, ⟨2, 20⟩)], 5⟩ [(2, ⟨2, 20⟩), (1, ⟨1, 3⟩)] 100
        (fun _ => 10)).items = [(2, ⟨2, 20⟩)] ∧
      ¬ (⟨2, 20⟩ : CacheItem).expiryTime < (fun _ => (10 : Int)) 0 :=
  ⟨by decide,
    (full_scan_removes_stale ⟨[(1, ⟨1, 3⟩), (2, ⟨2, 20⟩)], 5⟩ [(2, ⟨2, 20⟩), (1, ⟨1, 3⟩)] 100
      (fun _ => 10) (List.Perm.swap _ _ _) monotone_const
      (fun _ _ => show Since 10 10 ≤ 100 by decide)).2 2 ⟨2, 20⟩ (by decide)⟩

/-- C8: when the elapsed-time check first exceeds `maxScanDuration` at the
entry `e` (the checks of the entries `pre` before it were within budget), the
scan stops there: the cycle is the scan of `pre` alone, `e` and every entry
not yet visited are still in the mapping unchanged, stale or not, and every
entry of `pre` that was found expired has been removed. -/
theorem scan_break_keeps_rest (c : Cache) (pre : Items) (e : Int × CacheItem) (post : Items)
    (maxScanDuration : Int) (clock : Nat → Int) (hwf : WF c)
    (hperm : (pre ++ e :: post).Perm c.items)
    (hpre : ∀ n, n < pre.length → Since (clock (2 * n + 1)) (clock 0) ≤ maxScanDuration)
    (hbreak : maxScanDuration < Since (clock (2 * pre.length + 1)) (clock 0)) :
    ActiveExpiryCycle c (pre ++ e :: post) maxScanDuration clock =
        ActiveExpiryCycle c pre maxScanDuration clock ∧
      (∀ x, x ∈ e :: post →
        x ∈ (ActiveExpiryCycle c (pre ++ e :: post) maxScanDuration clock).items ∧
        mapGet (ActiveExpiryCycle c (pre ++ e :: post) maxScanDuration clock).items x.1 =
          some x.2) ∧
      (∀ n k v, pre[n]? = some (k, v) → v.expiryTime < clock (2 * n + 2) →
        mapGet (ActiveExpiryCycle c (pre ++ e :: post) maxScanDuration clock).items k =
          none) := by
  have heq : ActiveExpiryCycle c (pre ++ e :: post) maxScanDuration clock =
      ActiveExpiryCycle c pre maxScanDuration clock := by
    simp only [ActiveExpiryCycle]
    rw [scan_append_break (clock 0) maxScanDuration clock e post pre 0 c.items
      (by simpa using hbreak)]
  refine ⟨heq, ?_, ?_⟩
  · intro x hx
    rw [heq]
    have hnd : ((pre ++ e :: post).map Prod.fst).Nodup := (hperm.map Prod.fst).nodup_iff.mpr hwf
    rw [List.map_append, List.nodup_append] at hnd
    have hxk : x.1 ∉ pre.map Prod.fst :=
      fun h => hnd.2.2 h (List.mem_map_of_mem Prod.fst hx)
    have hxc : x ∈ c.items := hperm.subset (List.mem_append_right pre hx)
    have hmem : x ∈ (ActiveExpiryCycle c pre maxScanDuration clock).items :=
      scan_mem_of_not_visited (clock 0) maxScanDuration clock x pre 0 c.items hxc hxk
    exact ⟨hmem, mapGet_of_mem _ (cycle_wf c pre maxScanDuration clock hwf) hmem⟩
  · intro n k v hn hv
    rw [heq]
    have hlt : n < pre.length := by
      by_contra hge
      rw [List.getElem?_eq_none (not_lt.mp hge)] at hn
      exact absurd hn (by simp)
    refine scan_visited_stale (clock 0) maxScanDuration clock pre 0 c.items n k v ?_ hn
      (by simpa using hv)
    intro p hp
    simpa using hpre p (lt_of_le_of_lt hp hlt)

/-- C8 with budget 2 and two ticks a reading: the check of the first entry
reads an elapsed time of 2, within budget, and the entry is found expired and
removed; the check of the second entry reads 6 and the scan stops, so the
expired entries under keys 2 and 3 stay. -/
theorem scan_break_keeps_rest_witness :
    mapGet (ActiveExpiryCycle ⟨[(1, ⟨1, -9⟩), (2, ⟨2, -9⟩), (3, ⟨3, -9⟩)], 5⟩
        ([(1, ⟨1, -9⟩)] ++ (2, ⟨2, -9⟩) :: [(3, ⟨3, -9⟩)]) 2 (fun i => (i : Int) * 2)).items
        (2, (⟨2, -9⟩ : CacheItem)).1 = some ⟨2, -9⟩ :=
  ((scan_break_keeps_rest ⟨[(1, ⟨1, -9⟩), (2, ⟨2, -9⟩), (3, ⟨3, -9⟩)], 5⟩
      [(1, ⟨1, -9⟩)] (2, ⟨2, -9⟩) [(3, ⟨3, -9⟩)] 2 (fun i => (i : Int) * 2)
      (by decide) (List.Perm.refl _)
      (fun n hn => by
        have h0 : n = 0 := by simpa using hn
        subst h0
        decide)
      (by decide)).2.1 (2, ⟨2, -9⟩) (List.mem_cons_self _ _)).2

/-- C9: one scan cycle only deletes entries whose expiry has passed: the ttl
is unchanged, the resulting mapping is a sub-mapping of the original, every
entry it removed was visited at a clock reading strictly later than its
expiry time, and every entry whose expiry time is not earlier than any clock
reading is still present unchanged. -/
theorem scan_only_deletes_expired (c : Cache) (order : Items) (maxScanDuration : Int)
    (clock : Nat → Int) (hwf : WF c) (hperm : order.Perm c.items) :
    (ActiveExpiryCycle c order maxScanDuration clock).ttl = c.ttl ∧
      (ActiveExpiryCycle c order maxScanDuration clock).items.Sublist c.items ∧
      (∀ k v, mapGet (ActiveExpiryCycle c order maxScanDuration clock).items k = some v →
        mapGet c.items k = some v) ∧
      (∀ k v, mapGet c.items k = some v →
        mapGet (ActiveExpiryCycle c order maxScanDuration clock).items k = none →
        ∃ n, order[n]? = some (k, v) ∧ v.expiryTime < clock (2 * n + 2)) ∧
      (∀ k v, mapGet c.items k = some v → (∀ i, ¬ v.expiryTime < clock i) →
        mapGet (ActiveExpiryCycle c order maxScanDuration clock).items k = some v) := by
  have removed : ∀ k v, mapGet c.items k = some v →
      mapGet (ActiveExpiryCycle c order maxScanDuration clock).items k = none →
      ∃ n, order[n]? = some (k, v) ∧ v.expiryTime < clock (2 * n + 2) := by
    intro k v h h'
    obtain ⟨n, w, hn, hw⟩ := scan_get_none _ _ _ _ _ _ _ _ h h'
    have hmem : (k, w) ∈ c.items := hperm.subset (List.getElem?_mem hn)
    have hwv : w = v := by
      have := mapGet_of_mem c.items hwf hmem
      rw [h] at this
      exact (Option.some.inj this).symm
    subst hwv
    exact ⟨n, hn, by simpa using hw⟩
  refine ⟨rfl, scan_sublist _ _ _ _ _ _, fun k v h => scan_get_some _ _ _ _ _ _ _ _ h,
    removed, ?_⟩
  intro k v h hlive
  cases h' : mapGet (ActiveExpiryCycle c order maxScanDuration clock).items k with
  | some w => rw [← scan_get_some _ _ _ _ _ _ _ _ h', h]
  | none =>
    obtain ⟨n, _, hn⟩ := removed k v h h'
    exact absurd hn (hlive _)

/-- C9 on a two-entry state scanned at reading 10: the entry live until 20
is still there. -/
theorem scan_only_deletes_expired_witness :
    mapGet (ActiveExpiryCycle ⟨[(1, ⟨1, 3⟩), (2, ⟨2, 20⟩)], 5⟩ [(2, ⟨2, 20⟩), (1, ⟨1, 3⟩)]
        100 (fun _ => 10)).items 2 = some ⟨2, 20⟩ ∧
      mapGet (ActiveExpiryCycle ⟨[(1, ⟨1, 3⟩), (2, ⟨2, 20⟩)], 5⟩ [(2, ⟨2, 20⟩), (1, ⟨1, 3⟩)]
        100 (fun _ => 10)).items 1 = none :=
  ⟨(scan_only_deletes_expired ⟨[(1, ⟨1, 3⟩), (2, ⟨2, 20⟩)], 5⟩ [(2, ⟨2, 20⟩), (1, ⟨1, 3⟩)]
      100 (fun _ => 10) (by decide) (List.Perm.swap _ _ _)).2.2.2.2 2 ⟨2, 20⟩ (by decide)
      (fun _ => show ¬ (20 : Int) < 10 by decide),
    by decide⟩

/-! ## Indistinguishable misses -/

/-- C10, as amended: for a mapping `m` without key `k`, `CheckNumber(k)` at
`c` returns false in the three cases: on `m` itself, on `m` with an expired
entry for `k` inserted, and on the state a scan cycle left when it removed
that entry.  In the first two cases the resulting mapping is `m`; in the third
it is the swept state, unchanged by the lookup: a sub-mapping of `m`, which is
`m` itself when the scan removed no other entry. -/
theorem miss_indistinguishable (m : Items) (ttl k t c : Int) (order : Items)
    (maxScanDuration : Int) (clock : Nat → Int)
    (habs : mapGet m k = none) (hexp : t + ttl < c)
    (hswept : mapGet (ActiveExpiryCycle (AddItem ⟨m, ttl⟩ k t) order maxScanDuration
      clock).items k = none) :
    CheckNumber ⟨m, ttl⟩ k c = (false, ⟨m, ttl⟩) ∧
      CheckNumber (AddItem ⟨m, ttl⟩ k t) k c = (false, ⟨m, ttl⟩) ∧
      CheckNumber (ActiveExpiryCycle (AddItem ⟨m, ttl⟩ k t) order maxScanDuration clock) k c =
        (false, ActiveExpiryCycle (AddItem ⟨m, ttl⟩ k t) order maxScanDuration clock) ∧
      (ActiveExpiryCycle (AddItem ⟨m, ttl⟩ k t) order maxScanDuration clock).ttl = ttl ∧
      (ActiveExpiryCycle (AddItem ⟨m, ttl⟩ k t) order maxScanDuration clock).items.Sublist m ∧
      (∀ j v,
        mapGet (ActiveExpiryCycle (AddItem ⟨m, ttl⟩ k t) order maxScanDuration clock).items j
          = some v → mapGet m j = some v) ∧
      ((ActiveExpiryCycle (AddItem ⟨m, ttl⟩ k t) order maxScanDuration clock).items.length
          = m.length →
        ActiveExpiryCycle (AddItem ⟨m, ttl⟩ k t) order maxScanDuration clock = ⟨m, ttl⟩) := by
  have hdel : mapDelete m k = m := mapDelete_of_absent m k habs
  have hadd : (AddItem ⟨m, ttl⟩ k t).items = (k, ⟨k, t + ttl⟩) :: m := by
    simp [AddItem, mapSet, hdel]
  have hsub : (ActiveExpiryCycle (AddItem ⟨m, ttl⟩ k t) order maxScanDuration
      clock).items.Sublist m := by
    have h1 : (ActiveExpiryCycle (AddItem ⟨m, ttl⟩ k t) order maxScanDuration
        clock).items.Sublist ((k, ⟨k, t + ttl⟩) :: m) := by
      rw [← hadd]
      exact scan_sublist _ _ _ _ _ _
    rcases List.sublist_cons_iff.mp h1 with h | ⟨r, hr, _⟩
    · exact h
    · rw [mapGet_eq_none_iff, hr] at hswept
      exact absurd (by simp) hswept
  refine ⟨checkNumber_absent _ k c habs, ?_, checkNumber_absent _ k c hswept, rfl, hsub, ?_, ?_⟩
  · rw [checkNumber_stale (AddItem ⟨m, ttl⟩ k t) k c ⟨k, t + ttl⟩
      (mapGet_mapSet_self _ _ _) hexp]
    simp [AddItem, mapDelete_mapSet, hdel]
  · intro j v h
    have hj : j ≠ k := by
      rintro rfl
      rw [hswept] at h
      exact absurd h (by simp)
    have := scan_get_some _ _ _ _ _ _ _ _ h
    rwa [show (AddItem ⟨m, ttl⟩ k t).items = mapSet m k ⟨k, t + ttl⟩ from rfl,
      mapGet_mapSet_ne m _ hj] at this
  · intro hlen
    have := hsub.eq_of_length hlen
    cases hs : ActiveExpiryCycle (AddItem ⟨m, ttl⟩ k t) order maxScanDuration clock with
    | mk items ttl' =>
      have hi : items = m := by rw [hs] at this; exact this
      have ht : ttl' = ttl := by
        have : (ActiveExpiryCycle (AddItem ⟨m, ttl⟩ k t) order maxScanDuration clock).ttl
            = ttl := rfl
        rw [hs] at this
        exact this
      rw [hi, ht]

/-- C10 on the mapping holding key 7 until 50: key 42, inserted at 0 with ttl
5 and swept at reading 10, misses at 20 and the mapping is the one it was. -/
theorem miss_indistinguishable_witness :
    CheckNumber (AddItem ⟨[(7, ⟨7, 50⟩)], 5⟩ 42 0) 42 20 = (false, ⟨[(7, ⟨7, 50⟩)], 5⟩) ∧
      CheckNumber (ActiveExpiryCycle (AddItem ⟨[(7, ⟨7, 50⟩)], 5⟩ 42 0)
          [(42, ⟨42, 5⟩), (7, ⟨7, 50⟩)] 100 (fun _ => 10)) 42 20 =
        (false, ActiveExpiryCycle (AddItem ⟨[(7, ⟨7, 50⟩)], 5⟩ 42 0)
          [(42, ⟨42, 5⟩), (7, ⟨7, 50⟩)] 100 (fun _ => 10)) ∧
      ActiveExpiryCycle (AddItem ⟨[(7, ⟨7, 50⟩)], 5⟩ 42 0)
          [(42, ⟨42, 5⟩), (7, ⟨7, 50⟩)] 100 (fun _ => 10) = ⟨[(7, ⟨7, 50⟩)], 5⟩ :=
  ⟨(miss_indistinguishable [(7, ⟨7, 50⟩)] 5 42 0 20 [(42, ⟨42, 5⟩), (7, ⟨7, 50⟩)] 100
      (fun _ => 10) (by decide) (by decide) (by decide)).2.1,
    (miss_indistinguishable [(7, ⟨7, 50⟩)] 5 42 0 20 [(42, ⟨42, 5⟩), (7, ⟨7, 50⟩)] 100
      (fun _ => 10) (by decide) (by decide) (by decide)).2.2.1,
    by decide⟩

/-- C10 as stated fails when the sweep finds other expired entries: on the
mapping `m` holding key 7 expired since 0, key 42 is absent; after
`AddItem(42)` at 0 with ttl 5 and a full scan at reading 10, key 42 has been
removed, `CheckNumber(42)` at 20 returns false, and the mapping it leaves is
empty, not `m`. -/
theorem miss_indistinguishable_counterexample :
    mapGet [(7, (⟨7, 0⟩ : CacheItem))] 42 = none ∧
      mapGet (ActiveExpiryCycle (AddItem ⟨[(7, ⟨7, 0⟩)], 5⟩ 42 0)
          [(42, ⟨42, 5⟩), (7, ⟨7, 0⟩)] 100 (fun _ => 10)).items 42 = none ∧
      (CheckNumber (ActiveExpiryCycle (AddItem ⟨[(7, ⟨7, 0⟩)], 5⟩ 42 0)
          [(42, ⟨42, 5⟩), (7, ⟨7, 0⟩)] 100 (fun _ => 10)) 42 20).1 = false ∧
      ¬ (CheckNumber (ActiveExpiryCycle (AddItem ⟨[(7, ⟨7, 0⟩)], 5⟩ 42 0)
          [(42, ⟨42, 5⟩), (7, ⟨7, 0⟩)] 100 (fun _ => 10)) 42 20).2.items =
        [(7, ⟨7, 0⟩)] := by
  decide

/-! ## Time to live -/

/-- C11: `NewCache` takes a negative ttl as it is, and with a negative ttl
every entry is born expired: `AddItem(k)` at `t` followed by `CheckNumber(k)`
at any `c ≥ t` returns false. -/
theorem negative_ttl_born_expired (T k t c : Int) (hT : T < 0) (htc : t ≤ c) :
    (NewCache T).ttl = T ∧ (NewCache T).items = [] ∧
      ∀ s : Cache, s.ttl = T → (CheckNumber (AddItem s k t) k c).1 = false := by
  refine ⟨rfl, rfl, ?_⟩
  intro s hs
  have hget : mapGet (AddItem s k t).items k = some { value := k, expiryTime := t + s.ttl } :=
    mapGet_mapSet_self _ _ _
  rw [checkNumber_stale _ k c _ hget (by simp only; omega)]

/-- C11 with ttl -1: the lookup at the very reading of the insert misses. -/
theorem negative_ttl_born_expired_witness :
    (-1 : Int) < 0 ∧ (CheckNumber (AddItem (NewCache (-1)) 7 0) 7 0).1 = false :=
  ⟨by decide,
    (negative_ttl_born_expired (-1) 7 0 0 (by decide) (by decide)).2.2 (NewCache (-1)) rfl⟩

/-- C12: with a ttl that is not negative, the entry `AddItem` stores at clock
reading `t` does not expire before `t`. -/
theorem addItem_expiry_ge (c : Cache) (k t : Int) (h : 0 ≤ c.ttl) :
    ∃ item, mapGet (AddItem c k t).items k = some item ∧ t ≤ item.expiryTime :=
  ⟨{ value := k, expiryTime := t + c.ttl }, mapGet_mapSet_self _ _ _,
    le_add_of_nonneg_right h⟩

/-- C12 with ttl 0: the entry stored at reading 3 expires at 3. -/
theorem addItem_expiry_ge_witness :
    (0 : Int) ≤ (NewCache 0).ttl ∧
      ∃ item, mapGet (AddItem (NewCache 0) 7 3).items 7 = some item ∧ 3 ≤ item.expiryTime :=
  ⟨by decide, addItem_expiry_ge (NewCache 0) 7 3 (by decide)⟩

/-! ## Totality -/

theorem goReachable_items (c : GoCache) (h : GoCache.Reachable c) :
    ∃ m, c.items = some m := by
  induction h with
  | new ttl => exact ⟨[], rfl⟩
  | add c c' value now _ hadd ih =>
    obtain ⟨m, hm⟩ := ih
    simp only [GoCache.AddItem, hm, Option.some.injEq] at hadd
    exact ⟨_, by rw [← hadd]; rfl⟩
  | check c r value now _ hchk ih =>
    obtain ⟨m, hm⟩ := ih
    simp only [GoCache.CheckNumber, hm, Option.some.injEq] at hchk
    exact ⟨_, by rw [← hchk]; rfl⟩
  | sweep c c' order msd clock _ hsw ih =>
    obtain ⟨m, hm⟩ := ih
    simp only [GoCache.ActiveExpiryCycle, hm, Option.some.injEq] at hsw
    exact ⟨_, by rw [← hsw]; rfl⟩

/-- C13: no operation fails.  For every ttl `NewCache` returns a cache with an
initialised empty mapping and that ttl; in every state reachable from it the
mapping is initialised, and `AddItem`, `CheckNumber` and a scan cycle return
for every input, with the result of the operation on that mapping. -/
theorem operations_total :
    (∀ ttl, GoCache.NewCache ttl = { items := some [], ttl := ttl }) ∧
      ∀ c, GoCache.Reachable c →
        ∃ m, c.items = some m ∧
          (∀ value now, GoCache.AddItem c value now =
            some (GoCache.ofCache (AddItem { items := m, ttl := c.ttl } value now))) ∧
          (∀ value now, GoCache.CheckNumber c value now =
            some ((CheckNumber { items := m, ttl := c.ttl } value now).1,
              GoCache.ofCache (CheckNumber { items := m, ttl := c.ttl } value now).2)) ∧
          (∀ order maxScanDuration clock,
            GoCache.ActiveExpiryCycle c order maxScanDuration clock =
              some (GoCache.ofCache
                (ActiveExpiryCycle { items := m, ttl := c.ttl } order maxScanDuration clock))) := by
  refine ⟨fun _ => rfl, ?_⟩
  intro c hc
  obtain ⟨m, hm⟩ := goReachable_items c hc
  refine ⟨m, hm, ?_, ?_, ?_⟩
  · intro value now
    simp only [GoCache.AddItem, hm]
  · intro value now
    simp only [GoCache.CheckNumber, hm]
  · intro order msd clock
    simp only [GoCache.ActiveExpiryCycle, hm]

/-- C13 on the cache `NewCache(-5)` after one `AddItem`: a further `AddItem`
returns; on the zero value of the struct, whose map is nil, it does not. -/
theorem operations_total_witness :
    (∃ c', GoCache.AddItem (GoCache.ofCache (AddItem (NewCache (-5)) 7 0)) 8 1 = some c') ∧
      GoCache.AddItem { items := none, ttl := 0 } 8 1 = none :=
  ⟨(operations_total.2 (GoCache.ofCache (AddItem (NewCache (-5)) 7 0))
      (GoCache.Reachable.add (GoCache.NewCache (-5)) _ 7 0 (GoCache.Reachable.new (-5))
        rfl)).elim fun _ h => ⟨_, h.2.1 8 1⟩,
    rfl⟩

/-! ## Presence cache -/

theorem reachable_value_eq_key (c : Cache) (h : Reachable c) :
    ∀ e, e ∈ c.items → e.2.value = e.1 := by
  induction h with
  | new ttl => intro e he; simp [NewCache] at he
  | add c value now _ ih =>
    intro e he
    rcases List.mem_cons.mp he with h | h
    · rw [h]
    · exact ih e ((mapDelete_sublist c.items value).subset h)
  | check c value now _ ih =>
    intro e he
    cases hg : mapGet c.items value with
    | none =>
      rw [checkNumber_absent c value now hg] at he
      exact ih e he
    | some item =>
      by_cases hn : now ≤ item.expiryTime
      · rw [checkNumber_live c value now item hg hn] at he
        exact ih e he
      · rw [checkNumber_stale c value now item hg (not_le.mp hn)] at he
        exact ih e ((mapDelete_sublist c.items value).subset he)
  | sweep c order msd clock _ _ ih =>
    intro e he
    exact ih e ((scan_sublist _ _ _ _ _ _).subset he)

/-- C14: in every state reachable from `NewCache` through `AddItem`,
`CheckNumber` and scan cycles, every entry stored under a key `k` has the
value `k`. -/
theorem presence_invariant (c : Cache) (h : Reachable c) :
    (∀ e, e ∈ c.items → e.2.value = e.1) ∧
      ∀ k v, mapGet c.items k = some v → v.value = k :=
  ⟨reachable_value_eq_key c h, fun k v hg => reachable_value_eq_key c h (k, v) (mem_of_mapGet _ hg)⟩

/-- C14 on the state after `NewCache(5)`, `AddItem(7)` at 0 and a lookup of 8
at 1: key 7 holds the value 7. -/
theorem presence_invariant_witness :
    mapGet (CheckNumber (AddItem (NewCache 5) 7 0) 8 1).2.items 7 = some ⟨7, 5⟩ ∧
      (⟨7, 5⟩ : CacheItem).value = 7 :=
  ⟨by decide,
    (presence_invariant (CheckNumber (AddItem (NewCache 5) 7 0) 8 1).2
      (Reachable.check _ 8 1 (Reachable.add _ 7 0 (Reachable.new 5)))).2 7 ⟨7, 5⟩
      (by decide)⟩

/-! ## Sticky misses -/

theorem stepsWithoutAdd_get (k : Int) (a b : Cache) (h : StepsWithoutAdd k a b) :
    ∀ v, mapGet b.items k = some v → mapGet a.items k = some v := by
  induction h with
  | done c => exact fun _ h => h
  | add c c' value now hne _ ih =>
    intro v hv
    have := ih v hv
    rwa [show (AddItem c value now).items = mapSet c.items value _ from rfl,
      mapGet_mapSet_ne c.items _ (Ne.symm hne)] at this
  | check c c' value now _ ih =>
    intro v hv
    have h1 := ih v hv
    cases hg : mapGet c.items value with
    | none => rwa [checkNumber_absent c value now hg] at h1
    | some item =>
      by_cases hn : now ≤ item.expiryTime
      · rwa [checkNumber_live c value now item hg hn] at h1
      · rw [checkNumber_stale c value now item hg (not_le.mp hn)] at h1
        exact (mapGet_mapDelete_some c.items h1).2
  | sweep c c' order msd clock _ _ ih =>
    intro v hv
    exact scan_get_some _ _ _ _ _ _ _ _ (ih v hv)

theorem checkNumber_fst_eq_false_iff (c : Cache) (k now : Int) :
    (CheckNumber c k now).1 = false ↔
      ∀ item, mapGet c.items k = some item → item.expiryTime < now := by
  rw [← Bool.not_eq_true, checkNumber_fst_eq_true_iff]
  constructor
  · intro h item hi
    by_contra hn
    exact h ⟨item, hi, not_lt.mp hn⟩
  · rintro h ⟨item, hi, hn⟩
    exact absurd (h item hi) (not_lt.mpr hn)

/-- C18: a miss is sticky: when `CheckNumber(k)` at `c1` returns false, then
after any operations other than `AddItem(k)` (inserts of other keys, lookups,
scan cycles) `CheckNumber(k)` at any `c2 ≥ c1` returns false, whether the
lookup at `c1` was one of the operations or not; equivalently a hit at `c2`
implies a hit at `c1`. -/
theorem miss_sticky (s s' : Cache) (k c1 c2 : Int) (h12 : c1 ≤ c2)
    (hsteps : StepsWithoutAdd k s s') :
    ((CheckNumber s k c1).1 = false → (CheckNumber s' k c2).1 = false) ∧
      ((CheckNumber s' k c2).1 = true → (CheckNumber s k c1).1 = true) ∧
      ∀ s'', StepsWithoutAdd k (CheckNumber s k c1).2 s'' →
        (CheckNumber s k c1).1 = false → (CheckNumber s'' k c2).1 = false := by
  have key : ∀ a b : Cache, StepsWithoutAdd k a b →
      (CheckNumber a k c1).1 = false → (CheckNumber b k c2).1 = false := by
    intro a b hab hmiss
    rw [checkNumber_fst_eq_false_iff] at hmiss ⊢
    intro item hi
    exact lt_of_lt_of_le (hmiss item (stepsWithoutAdd_get k a b hab item hi)) h12
  refine ⟨key s s' hsteps, ?_, ?_⟩
  · intro hhit
    by_contra hmiss
    rw [Bool.not_eq_true] at hmiss
    rw [key s s' hsteps hmiss] at hhit
    exact absurd hhit (by simp)
  · intro s'' hs'' hmiss
    exact key s s'' (StepsWithoutAdd.check s s'' k c1 hs'') hmiss

/-- C18 on a cache with ttl 5: key 7 inserted at 0 misses at 6; after an
insert of key 8 at 7 and a scan cycle at 8, key 7 misses at 9. -/
theorem miss_sticky_witness :
    (CheckNumber (AddItem (NewCache 5) 7 0) 7 6).1 = false ∧
      (CheckNumber (ActiveExpiryCycle (AddItem (AddItem (NewCache 5) 7 0) 8 7)
        [(8, ⟨8, 12⟩), (7, ⟨7, 5⟩)] 100 (fun _ => 8)) 7 9).1 = false :=
  ⟨by decide,
    (miss_sticky (AddItem (NewCache 5) 7 0)
      (ActiveExpiryCycle (AddItem (AddItem (NewCache 5) 7 0) 8 7)
        [(8, ⟨8, 12⟩), (7, ⟨7, 5⟩)] 100 (fun _ => 8)) 7 6 9 (by decide)
      (StepsWithoutAdd.add _ _ 8 7 (by decide)
        (StepsWithoutAdd.sweep _ _ [(8, ⟨8, 12⟩), (7, ⟨7, 5⟩)] 100 (fun _ => 8)
          (List.Perm.refl _) (StepsWithoutAdd.done _)))).1 (by decide)⟩

/-! ## Negative scan budget -/

theorem since_nonneg (now start : Int) (h : start ≤ now) : 0 ≤ Since now start := by
  unfold Since maxDuration minDuration
  split_ifs <;> omega

theorem scan_break_first (start msd : Int) (clock : Nat → Int) (i : Nat) (order items : Items)
    (h : msd < Since (clock (i + 1)) start) :
    ActiveExpiryScan start msd clock i order items = items := by
  cases order with
  | nil => rfl
  | cons e rest =>
    obtain ⟨k, v⟩ := e
    have h' : Since (clock (i + 1)) start > msd := h
    simp [ActiveExpiryScan, h']

/-- C19: with a negative `maxScanDuration` and a non-decreasing clock, the
first elapsed-time check of a scan cycle exceeds the budget, and the cycle
leaves the state exactly as it was, whatever it holds. -/
theorem negative_budget_scan_noop (c : Cache) (order : Items) (maxScanDuration : Int)
    (clock : Nat → Int) (hmsd : maxScanDuration < 0) (hmono : Monotone clock) :
    maxScanDuration < Since (clock 1) (clock 0) ∧
      ActiveExpiryCycle c order maxScanDuration clock = c := by
  have h : maxScanDuration < Since (clock 1) (clock 0) :=
    lt_of_lt_of_le hmsd (since_nonneg _ _ (hmono (Nat.zero_le 1)))
  refine ⟨h, ?_⟩
  simp only [ActiveExpiryCycle]
  rw [scan_break_first (clock 0) maxScanDuration clock 0 order c.items (by simpa using h)]

/-- C19 with budget -1 on a state holding two expired entries, scanned at
reading 10: both stay. -/
theorem negative_budget_scan_noop_witness :
    ActiveExpiryCycle ⟨[(1, ⟨1, 3⟩), (2, ⟨2, 4⟩)], 5⟩ [(2, ⟨2, 4⟩), (1, ⟨1, 3⟩)] (-1)
        (fun _ => 10) = ⟨[(1, ⟨1, 3⟩), (2, ⟨2, 4⟩)], 5⟩ :=
  (negative_budget_scan_noop ⟨[(1, ⟨1, 3⟩), (2, ⟨2, 4⟩)], 5⟩ [(2, ⟨2, 4⟩), (1, ⟨1, 3⟩)] (-1)
    (fun _ => 10) (by decide) monotone_const).2

/-! ## Full scan at one instant -/

/-- A scan that never breaks and decides every entry at the reading `n`
removes the keys of the visited entries that expired before `n`. -/
theorem scan_const_filter (start msd n : Int) (clock : Nat → Int) (order : Items) :
    ∀ (i : Nat) (items : Items),
      (∀ p, p < order.length → Since (clock (i + 2 * p + 1)) start ≤ msd) →
      (∀ p, p < order.length → clock (i + 2 * p + 2) = n) →
      ActiveExpiryScan start msd clock i order items =
        items.filter (fun e =>
          !(order.any (fun x => decide (x.2.expiryTime < n) && decide (x.1 = e.1)))) := by
  induction order with
  | nil => intro i items _ _; simp [ActiveExpiryScan]
  | cons x rest ih =>
    intro i items hb hc
    obtain ⟨k, v⟩ := x
    have h0 : ¬ Since (clock (i + 1)) start > msd := by
      have := hb 0 (by simp)
      simpa using this
    have hn : clock (i + 2) = n := by
      have := hc 0 (by simp)
      simpa using this
    have hb' : ∀ p, p < rest.length → Since (clock (i + 2 + 2 * p + 1)) start ≤ msd := by
      intro p hp
      have := hb (p + 1) (by simpa using hp)
      have e2 : i + 2 * (p + 1) + 1 = i + 2 + 2 * p + 1 := by ring
      rwa [e2] at this
    have hc' : ∀ p, p < rest.length → clock (i + 2 + 2 * p + 2) = n := by
      intro p hp
      have := hc (p + 1) (by simpa using hp)
      have e2 : i + 2 * (p + 1) + 2 = i + 2 + 2 * p + 2 := by ring
      rwa [e2] at this
    simp only [ActiveExpiryScan, h0, if_false, hn]
    by_cases hstale : v.expiryTime < n
    · have hA : After n v.expiryTime = true := by simpa [After] using hstale
      simp only [hA, if_true]
      rw [ih _ _ hb' hc', mapDelete, List.filter_filter]
      apply List.filter_congr
      intro e _
      by_cases hk : k = e.1
      · have hk' : ¬ e.1 ≠ k := fun h => h hk.symm
        simp [hstale, hk, hk']
      · have hk' : e.1 ≠ k := fun h => hk h.symm
        simp [hstale, hk, hk']
    · have hA : After n v.expiryTime = false := by simp [After, hstale]
      simp only [hA, Bool.false_eq_true, if_false]
      rw [ih _ _ hb' hc']
      apply List.filter_congr
      intro e _
      simp [hstale]

theorem eq_of_mem_of_key_eq (m : Items) (hm : (m.map Prod.fst).Nodup) {x e : Int × CacheItem}
    (hx : x ∈ m) (he : e ∈ m) (hk : x.1 = e.1) : x = e := by
  have h1 := mapGet_of_mem m hm (show (x.1, x.2) ∈ m from hx)
  have h2 := mapGet_of_mem m hm (show (e.1, e.2) ∈ m from he)
  rw [hk, h2] at h1
  exact Prod.ext hk (Option.some.inj h1).symm

theorem cycle_const_filter (c : Cache) (order : Items) (msd : Int) (clock : Nat → Int)
    (n : Int) (hwf : WF c) (hperm : order.Perm c.items)
    (hfull : ∀ p, p < order.length → Since (clock (2 * p + 1)) (clock 0) ≤ msd)
    (hclock : ∀ p, p < order.length → clock (2 * p + 2) = n) :
    ActiveExpiryCycle c order msd clock =
      { c with items := c.items.filter (fun e => decide (n ≤ e.2.expiryTime)) } := by
  simp only [ActiveExpiryCycle]
  rw [scan_const_filter (clock 0) msd n clock order 0 c.items
    (fun p hp => by simpa using hfull p hp) (fun p hp => by simpa using hclock p hp)]
  congr 1
  apply List.filter_congr
  intro e he
  by_cases hs : e.2.expiryTime < n
  · have hany : order.any (fun x => decide (x.2.expiryTime < n) && decide (x.1 = e.1)) = true :=
      List.any_eq_true.mpr ⟨e, hperm.symm.subset he, by simp [hs]⟩
    simp [hany, hs]
  · have hany : order.any (fun x => decide (x.2.expiryTime < n) && decide (x.1 = e.1)) = false := by
      rw [Bool.eq_false_iff]
      intro h
      obtain ⟨x, hx, hp⟩ := List.any_eq_true.mp h
      simp only [Bool.and_eq_true, decide_eq_true_eq] at hp
      have := eq_of_mem_of_key_eq c.items hwf (hperm.subset hx) he hp.2
      rw [this] at hp
      exact hs hp.1
    simp [hany, not_lt.mp hs]

/-- C17: a scan cycle that is never abandoned and reads the same instant `n`
at every expiry decision leaves the original mapping restricted to the entries
with expiry time at least `n`, whatever the order in which the entries are
visited: two such cycles over the same state give the same state. -/
theorem full_scan_is_filter (c : Cache) (order : Items) (maxScanDuration : Int)
    (clock : Nat → Int) (n : Int) (hwf : WF c) (hperm : order.Perm c.items)
    (hfull : ∀ p, p < order.length → Since (clock (2 * p + 1)) (clock 0) ≤ maxScanDuration)
    (hclock : ∀ p, p < order.length → clock (2 * p + 2) = n) :
    ActiveExpiryCycle c order maxScanDuration clock =
        { c with items := c.items.filter (fun e => decide (n ≤ e.2.expiryTime)) } ∧
      ∀ (order2 : Items) (maxScanDuration2 : Int) (clock2 : Nat → Int),
        order2.Perm c.items →
        (∀ p, p < order2.length → Since (clock2 (2 * p + 1)) (clock2 0) ≤ maxScanDuration2) →
        (∀ p, p < order2.length → clock2 (2 * p + 2) = n) →
        ActiveExpiryCycle c order2 maxScanDuration2 clock2 =
          ActiveExpiryCycle c order maxScanDuration clock := by
  have h1 := cycle_const_filter c order maxScanDuration clock n hwf hperm hfull hclock
  refine ⟨h1, ?_⟩
  intro order2 msd2 clock2 hperm2 hfull2 hclock2
  rw [h1, cycle_const_filter c order2 msd2 clock2 n hwf hperm2 hfull2 hclock2]

/-- C17 on a three-entry state scanned at reading 10 with budget 100, in
the order 3, 1, 2: the entries expiring at 3 and at 9 go, the one expiring at
10 stays. -/
theorem full_scan_is_filter_witness :
    ActiveExpiryCycle ⟨[(1, ⟨1, 3⟩), (2, ⟨2, 10⟩), (3, ⟨3, 9⟩)], 5⟩
        [(3, ⟨3, 9⟩), (1, ⟨1, 3⟩), (2, ⟨2, 10⟩)] 100 (fun _ => 10) =
      ⟨[(2, ⟨2, 10⟩)], 5⟩ :=
  (full_scan_is_filter ⟨[(1, ⟨1, 3⟩), (2, ⟨2, 10⟩), (3, ⟨3, 9⟩)], 5⟩
    [(3, ⟨3, 9⟩), (1, ⟨1, 3⟩), (2, ⟨2, 10⟩)] 100 (fun _ => 10) 10 (by decide)
    (by decide) (fun _ _ => show Since 10 10 ≤ 100 by decide) (fun _ _ => rfl)).1.trans
    (by decide)

/-! ## Sweep test -/

theorem insertKeys_ttl (keys : List Int) (now : Int) :
    ∀ c : Cache, (insertKeys c keys now).ttl = c.ttl := by
  induction keys with
  | nil => intro c; rfl
  | cons k ks ih =>
    intro c
    simp only [insertKeys, List.foldl_cons]
    exact (ih (AddItem c k now)).trans rfl

theorem insertKeys_length (keys : List Int) (now : Int) :
    ∀ c : Cache, keys.Nodup → (∀ k, k ∈ keys → mapGet c.items k = none) →
      (insertKeys c keys now).items.length = c.items.length + keys.length := by
  induction keys with
  | nil => intro c _ _; rfl
  | cons k ks ih =>
    intro c hnd habs
    rw [List.nodup_cons] at hnd
    have hk : mapGet c.items k = none := habs k (List.mem_cons_self _ _)
    have hitems : (AddItem c k now).items = (k, ⟨k, now + c.ttl⟩) :: c.items := by
      simp [AddItem, mapSet, mapDelete_of_absent c.items k hk]
    have habs' : ∀ j, j ∈ ks → mapGet (AddItem c k now).items j = none := by
      intro j hj
      have hne : j ≠ k := fun e => hnd.1 (e ▸ hj)
      rw [show (AddItem c k now).items = mapSet c.items k _ from rfl,
        mapGet_mapSet_ne c.items _ hne]
      exact habs j (List.mem_cons_of_mem _ hj)
    have := ih (AddItem c k now) hnd.2 habs'
    simp only [insertKeys, List.foldl_cons] at this ⊢
    rw [this, hitems]
    simp only [List.length_cons]
    omega

theorem insertKeys_expiry (keys : List Int) (now : Int) :
    ∀ c : Cache, ∀ e, e ∈ (insertKeys c keys now).items →
      e ∈ c.items ∨ e.2.expiryTime = now + c.ttl := by
  induction keys with
  | nil => intro c e he; exact Or.inl he
  | cons k ks ih =>
    intro c e he
    simp only [insertKeys, List.foldl_cons] at he
    rcases ih (AddItem c k now) e he with h | h
    · rcases List.mem_cons.mp h with h | h
      · exact Or.inr (by rw [h])
      · exact Or.inl ((mapDelete_sublist c.items k).subset h)
    · exact Or.inr h

/-- A scan whose first entry is visited within budget and found expired
leaves fewer entries than it found. -/
theorem scan_head_removed_length (start msd : Int) (clock : Nat → Int) (i : Nat)
    (x : Int × CacheItem) (rest items : Items) (hx : x ∈ items)
    (hb : Since (clock (i + 1)) start ≤ msd) (hs : x.2.expiryTime < clock (i + 2)) :
    (ActiveExpiryScan start msd clock i (x :: rest) items).length < items.length := by
  obtain ⟨k, v⟩ := x
  have h0 : ¬ Since (clock (i + 1)) start > msd := not_lt.mpr hb
  have hA : After (clock (i + 2)) v.expiryTime = true := by simpa [After] using hs
  simp only [ActiveExpiryScan, h0, if_false, hA, if_true]
  refine lt_of_le_of_lt (scan_sublist _ _ _ _ _ _).length_le ?_
  rw [mapDelete, List.length_filter_lt_length_iff_exists]
  exact ⟨(k, v), hx, by simp⟩

/-- C15, as amended: with ttl 1s and a scan budget of 10ms, after 1000
distinct keys are inserted at time 0 and no lookup is made, the first scan
cycle, which starts at or after 2s, leaves fewer than 1000 entries, provided
its first elapsed-time check is within the budget. -/
theorem first_sweep_shrinks (keys : List Int) (order : Items) (clock : Nat → Int)
    (hkeys : keys.Nodup) (hlen : keys.length = 1000)
    (hperm : order.Perm (insertKeys (NewCache (1 * Second)) keys 0).items)
    (hmono : Monotone clock) (hstart : 2 * Second ≤ clock 0)
    (hfirst : Since (clock 1) (clock 0) ≤ 10 * Millisecond) :
    (insertKeys (NewCache (1 * Second)) keys 0).items.length = 1000 ∧
      (ActiveExpiryCycle (insertKeys (NewCache (1 * Second)) keys 0) order
        (10 * Millisecond) clock).items.length < 1000 := by
  have hsize : (insertKeys (NewCache (1 * Second)) keys 0).items.length = 1000 := by
    rw [insertKeys_length keys 0 (NewCache (1 * Second)) hkeys (fun _ _ => rfl), hlen]
    rfl
  refine ⟨hsize, ?_⟩
  cases order with
  | nil =>
    have := hperm.length_eq
    rw [hsize] at this
    simp at this
  | cons x rest =>
    have hx : x ∈ (insertKeys (NewCache (1 * Second)) keys 0).items :=
      hperm.subset (List.mem_cons_self _ _)
    have hexp : x.2.expiryTime = 0 + 1 * Second := by
      rcases insertKeys_expiry keys 0 (NewCache (1 * Second)) x hx with h | h
      · simp [NewCache] at h
      · exact h
    have hs : x.2.expiryTime < clock (0 + 2) := by
      have h2 : clock 0 ≤ clock (0 + 2) := hmono (Nat.zero_le _)
      rw [hexp]
      unfold Second at hstart ⊢
      omega
    have := scan_head_removed_length (clock 0) (10 * Millisecond) clock 0 x rest _ hx
      (by simpa using hfirst) hs
    rw [hsize] at this
    exact this

/-- C15 on the keys 0 to 999, visited in the order of the list, with a clock
that stands at 2s during the scan. -/
theorem first_sweep_shrinks_witness :
    (ActiveExpiryCycle (insertKeys (NewCache (1 * Second)) sweepTestKeys 0)
      (insertKeys (NewCache (1 * Second)) sweepTestKeys 0).items
      (10 * Millisecond) (fun _ => 2 * Second)).items.length < 1000 :=
  (first_sweep_shrinks sweepTestKeys (insertKeys (NewCache (1 * Second)) sweepTestKeys 0).items
    (fun _ => 2 * Second)
    ((List.nodup_range 1000).map (fun _ _ h => Int.ofNat.inj h))
    (by simp [sweepTestKeys]) (List.Perm.refl _) monotone_const (le_refl _)
    (show Since (2 * Second) (2 * Second) ≤ 10 * Millisecond by decide)).2

/-- C15 as stated fails when the scan is held up before its first check: the
keys 0 to 999 are distinct, the clock is non-decreasing and reads 2s at the
scan start, but the first elapsed-time check reads 11ms, over the budget of
10ms, and the scan removes nothing: 1000 entries are left. -/
theorem first_sweep_shrinks_counterexample :
    sweepTestKeys.Nodup ∧ sweepTestKeys.length = 1000 ∧ Monotone slowClock ∧
      2 * Second ≤ slowClock 0 ∧
      ¬ (ActiveExpiryCycle (insertKeys (NewCache (1 * Second)) sweepTestKeys 0)
        (insertKeys (NewCache (1 * Second)) sweepTestKeys 0).items
        (10 * Millisecond) slowClock).items.length < 1000 := by
  have hnd : sweepTestKeys.Nodup :=
    (List.nodup_range 1000).map (fun _ _ h => Int.ofNat.inj h)
  have hlen : sweepTestKeys.length = 1000 := by simp [sweepTestKeys]
  have hmono : Monotone slowClock := by
    intro a b hab
    unfold slowClock Second Millisecond
    split_ifs <;> omega
  refine ⟨hnd, hlen, hmono, le_refl _, ?_⟩
  have hbreak : 10 * Millisecond < Since (slowClock (0 + 1)) (slowClock 0) := by decide
  simp only [ActiveExpiryCycle]
  rw [scan_break_first (slowClock 0) (10 * Millisecond) slowClock 0 _ _ hbreak,
    insertKeys_length sweepTestKeys 0 (NewCache (1 * Second)) hnd (fun _ _ => rfl), hlen]
  decide

end ExpiringCache
